import Mathlib

/-!
Verification development for the rs-handlegraph repository.

Part 1 embeds the reference hash-based representation (`src/hashgraph.rs`,
`src/handlegraph.rs`): nodes with sequences, left/right edge lists, a
per-node occurrence map keyed by path id, and paths as vectors of handles.
Rust `HashMap`s are embedded as association lists whose `insert` replaces
the entry for an existing key; `panic!`/`unwrap`/`expect` failures are
embedded by returning `none`.
-/

/-- Association-list lookup: first entry with the given key (models
`HashMap::get`, well-defined because inserts below replace existing keys). -/
def alLookup {α β : Type} [DecidableEq α] : List (α × β) → α → Option β
  | [], _ => none
  | (k', v) :: t, k => if k' = k then some v else alLookup t k

/-- Association-list insert that replaces the entry for an existing key
(models `HashMap::insert`). -/
def alInsert {α β : Type} [DecidableEq α] : List (α × β) → α → β → List (α × β)
  | [], k, v => [(k, v)]
  | (k', v') :: t, k, v =>
      if k' = k then (k, v) :: t else (k', v') :: alInsert t k v

theorem alLookup_alInsert_self {α β : Type} [DecidableEq α]
    (l : List (α × β)) (k : α) (v : β) : alLookup (alInsert l k v) k = some v := by
  induction l with
  | nil => simp [alInsert, alLookup]
  | cons hd t ih =>
      by_cases h : hd.1 = k
      · simp [alInsert, h, alLookup]
      · simpa [alInsert, h, alLookup] using ih

theorem alLookup_alInsert_ne {α β : Type} [DecidableEq α]
    (l : List (α × β)) (k k' : α) (v : β) (h : k' ≠ k) :
    alLookup (alInsert l k v) k' = alLookup l k' := by
  induction l with
  | nil => simp [alInsert, alLookup, Ne.symm h]
  | cons hd t ih =>
      by_cases hk : hd.1 = k
      · subst hk
        simp [alInsert, alLookup, Ne.symm h]
      · simp only [alInsert, if_neg hk]
        by_cases hk' : hd.1 = k'
        · simp [alLookup, hk']
        · simpa [alLookup, hk'] using ih

theorem length_alInsert_of_lookup_some {α β : Type} [DecidableEq α]
    (l : List (α × β)) (k : α) (v : β) (h : (alLookup l k).isSome) :
    (alInsert l k v).length = l.length := by
  induction l with
  | nil => simp [alLookup] at h
  | cons hd t ih =>
      by_cases hk : hd.1 = k
      · simp [alInsert, hk]
      · simp only [alLookup, if_neg hk] at h
        simp [alInsert, if_neg hk, ih h]

theorem length_alInsert_of_lookup_none {α β : Type} [DecidableEq α]
    (l : List (α × β)) (k : α) (v : β) (h : alLookup l k = none) :
    (alInsert l k v).length = l.length + 1 := by
  induction l with
  | nil => simp [alInsert]
  | cons hd t ih =>
      by_cases hk : hd.1 = k
      · simp [alLookup, hk] at h
      · simp only [alLookup, if_neg hk] at h
        simp [alInsert, if_neg hk, ih h]

/-- A handle: a node id together with an orientation bit
(`src/handle.rs`, modelled through its use sites: low bit = reverse). -/
structure Handle where
  id : Nat
  is_rev : Bool
  deriving DecidableEq, Repr

/-- `Handle::flip` toggles the orientation. -/
def Handle.flip (h : Handle) : Handle := ⟨h.id, !h.is_rev⟩

theorem Handle.flip_flip (h : Handle) : h.flip.flip = h := by
  cases h with
  | mk i r => cases r <;> rfl

/-- `hashgraph.rs` `Node`: sequence, two edge lists, occurrence map.
`occurrences` is a `HashMap<PathId, usize>` in the source, embedded as an
association list with replacing insert. -/
structure HGNode where
  sequence : List Char
  left_edges : List Handle
  right_edges : List Handle
  occurrences : List (Int × Nat)
  deriving DecidableEq, Repr

/-- `Node::new`. -/
def HGNode.new (seq : List Char) : HGNode := ⟨seq, [], [], []⟩

/-- `hashgraph.rs` `Path`. -/
structure HGPath where
  path_id : Int
  name : List Char
  is_circular : Bool
  nodes : List Handle
  deriving DecidableEq, Repr

/-- `hashgraph.rs` `HashGraph`. Node ids are `u64`, path ids `i64`. -/
structure HashGraph where
  max_id : Nat
  min_id : Nat
  graph : List (Nat × HGNode)
  path_id : List (List Char × Int)
  paths : List (Int × HGPath)
  deriving DecidableEq, Repr

/-- `HashGraph::new` (`min_id` starts at `u64::MAX`). -/
def hashGraphNew : HashGraph :=
  { max_id := 0, min_id := 2 ^ 64 - 1, graph := [], path_id := [], paths := [] }

/-- `MutableHandleGraph::create_handle` for `HashGraph`: panics on an empty
sequence (embedded as `none`), otherwise inserts the node (replacing any
node already stored under that id, as `HashMap::insert` does) and updates
`max_id`/`min_id`. -/
def createHandle (seq : List Char) (node_id : Nat) (g : HashGraph) :
    Option (HashGraph × Handle) :=
  if seq = [] then none
  else
    some ({ g with
              graph := alInsert g.graph node_id (HGNode.new seq)
              max_id := max g.max_id node_id
              min_id := min g.min_id node_id },
          ⟨node_id, false⟩)

/-- `MutableHandleGraph::append_handle`: `create_handle(seq, max_id + 1)`. -/
def appendHandle (seq : List Char) (g : HashGraph) : Option (HashGraph × Handle) :=
  createHandle seq (g.max_id + 1) g

/-- `MutableHandleGraph::create_edge` for `HashGraph`. The duplicate check
always walks `right_edges` of the left node; the insert then picks the list
by `left.is_reverse()`. A missing node (`expect`) is embedded as `none`. -/
def createEdge (left right : Handle) (g : HashGraph) : Option HashGraph := do
  let left_node ← alLookup g.graph left.id
  let add_edge := ¬ (right ∈ left_node.right_edges)
  if add_edge then
    let ln' :=
      if left.is_rev then { left_node with left_edges := left_node.left_edges ++ [right] }
      else { left_node with right_edges := left_node.right_edges ++ [right] }
    let g1 := { g with graph := alInsert g.graph left.id ln' }
    if left = right.flip then
      some g1
    else do
      let right_node ← alLookup g1.graph right.id
      let rn' :=
        if right.is_rev then { right_node with right_edges := right_node.right_edges ++ [left.flip] }
        else { right_node with left_edges := right_node.left_edges ++ [left.flip] }
      some { g1 with graph := alInsert g1.graph right.id rn' }
  else
    some g

/-- The list of handles yielded by `follow_edges(handle, Right)` for
`HashGraph`: `left_edges` iff the handle is reversed, no flipping for the
`Right` direction. Empty when the node does not exist (in the source that
case panics; the callers below guard on liveness). -/
def neighborsRight (g : HashGraph) (h : Handle) : List Handle :=
  match alLookup g.graph h.id with
  | none => []
  | some n => if h.is_rev then n.left_edges else n.right_edges

/-- `HandleGraph::has_edge` (default method in `handlegraph.rs`): walks
`follow_edges(left, Right)` looking for `right`. `none` when the node
behind `left` does not exist (the source panics there). -/
def hasEdge (g : HashGraph) (left right : Handle) : Option Bool :=
  (alLookup g.graph left.id).map fun n =>
    (if left.is_rev then n.left_edges else n.right_edges).contains right

/-- `PathHandleGraph::create_path_handle` for `HashGraph`: the fresh path id
is `paths.len() as i64`. -/
def createPathHandle (name : List Char) (is_circular : Bool) (g : HashGraph) :
    Int × HashGraph :=
  let pid : Int := (g.paths.length : Int)
  (pid, { g with
            path_id := alInsert g.path_id name pid
            paths := alInsert g.paths pid ⟨pid, name, is_circular, []⟩ })

/-- `PathHandleGraph::append_step` for `HashGraph`: push the handle on the
path's node vector, then `occurrences.insert(path_id, new_len - 1)` on the
node (replacing any previous entry for this path id). The two `unwrap`s are
embedded as `none`. -/
def appendStep (pid : Int) (to_append : Handle) (g : HashGraph) : Option HashGraph := do
  let path ← alLookup g.paths pid
  let path' := { path with nodes := path.nodes ++ [to_append] }
  let g1 := { g with paths := alInsert g.paths pid path' }
  let node ← alLookup g1.graph to_append.id
  let node' := { node with occurrences := alInsert node.occurrences pid path.nodes.length }
  some { g1 with graph := alInsert g1.graph to_append.id node' }

/-- `hashgraph.rs` `PathStep`: `Front`, `End` or a real step. -/
inductive HGPathStep where
  | front (pid : Int)
  | endSentinel (pid : Int)
  | step (pid : Int) (ix : Nat)
  deriving DecidableEq, Repr

/-- `PathHandleGraph::get_step_count`: length of the path's node vector,
`none` when the path does not exist (the source panics). -/
def stepCount (g : HashGraph) (pid : Int) : Option Nat :=
  (alLookup g.paths pid).map fun p => p.nodes.length

/-- `PathHandleGraph::path_back`: `Step(path, step_count - 1)`; the `usize`
subtraction underflows on an empty path (embedded as `none`). -/
def pathBack (g : HashGraph) (pid : Int) : Option HGPathStep := do
  let c ← stepCount g pid
  if c = 0 then none else some (.step pid (c - 1))

/-- `PathHandleGraph::previous_step` for `HashGraph`: `Front` is absorbing,
`End` goes to `path_back`, and a step at index 0 goes to `path_end(pid)`,
i.e. the `End` sentinel. -/
def previousStep (g : HashGraph) (s : HGPathStep) : Option HGPathStep :=
  match s with
  | .front pid => some (.front pid)
  | .endSentinel pid => pathBack g pid
  | .step pid ix => if ix > 0 then some (.step pid (ix - 1)) else some (.endSentinel pid)

/-- Checked `usize` subtraction: Rust panics on underflow (embedded as `none`). -/
def checkedSub (x y : Nat) : Option Nat := if y ≤ x then some (x - y) else none

/-- Rust string slice `s[a..b]`: panics unless `a ≤ b ≤ s.len()`. -/
def rustSliceList (s : List Char) (a b : Nat) : Option (List Char) :=
  if a ≤ b ∧ b ≤ s.length then some ((s.take b).drop a) else none

/-- The subsequence computation inside `HashGraph::divide_handle`: for each
offset `o` at position `i`, `len` is `(next offset or node_len) - o`, and the
code then slices `sequence[o..len]`, using the computed length as the end
index. -/
def divideSubseqs (sequence : List Char) (node_len : Nat) (fwd_offsets : List Nat) :
    Option (List (List Char)) :=
  fwd_offsets.enum.mapM fun io => do
    let bound := if io.1 + 1 < fwd_offsets.length then fwd_offsets.getD (io.1 + 1) 0 else node_len
    let len ← checkedSub bound io.2
    rustSliceList sequence io.2 len

/-- `MutableHandleGraph::divide_handle` for `HashGraph`, step for step:
offset canonicalization, subsequence creation, appending the new nodes,
the two `mem::swap`s moving the right-edge list (through a temporary
initialized to `vec![result[1]]`), shrinking the original sequence, and
rewriting the back-references of the last segment's right neighbors.
Panicking operations are embedded as `none`. -/
def divideHandle (g : HashGraph) (handle : Handle) (offsets : List Nat) :
    Option (HashGraph × List Handle) := do
  let node ← alLookup g.graph handle.id
  let node_len := node.sequence.length
  let sequence := node.sequence
  let fwd_offsets ←
    if handle.is_rev then offsets.mapM (fun o => checkedSub node_len o) else some offsets
  let fwd_handle := if handle.is_rev then handle.flip else handle
  let subseqs ← divideSubseqs sequence node_len fwd_offsets
  let gh ← subseqs.foldlM
      (fun (acc : HashGraph × List Handle) seq => do
        let (g', h) ← appendHandle seq acc.1
        pure (g', acc.2 ++ [h]))
      (g, ([] : List Handle))
  let g1 := gh.1
  let result := handle :: gh.2
  let first_new ← result[1]?
  let lastH ← result.getLast?
  let orig ← alLookup g1.graph handle.id
  let old_rights := orig.right_edges
  let g2 := { g1 with graph := alInsert g1.graph handle.id { orig with right_edges := [first_new] } }
  let lastNode ← alLookup g2.graph lastH.id
  let g3 := { g2 with graph := alInsert g2.graph lastH.id { lastNode with right_edges := old_rights } }
  let firstOff ← fwd_offsets[0]?
  let orig2 ← alLookup g3.graph handle.id
  let shrunk ← rustSliceList orig2.sequence 0 firstOff
  let g4 := { g3 with graph := alInsert g3.graph handle.id { orig2 with sequence := shrunk } }
  let lastNode2 ← alLookup g4.graph lastH.id
  let last_neighbors := if lastH.is_rev then lastNode2.left_edges else lastNode2.right_edges
  let g5 ← last_neighbors.foldlM
      (fun (gacc : HashGraph) h => do
        let n ← alLookup gacc.graph h.id
        let upd := fun (l : List Handle) =>
          l.map (fun bwd => if bwd = fwd_handle.flip then lastH.flip else bwd)
        let n' :=
          if h.is_rev then { n with right_edges := upd n.right_edges }
          else { n with left_edges := upd n.left_edges }
        some { gacc with graph := alInsert gacc.graph h.id n' })
      g4
  some (g5, result)

/-- The sequences of a list of handles in a graph, as stored on the nodes
(`get_sequence` ignores orientation in the source). -/
def handleSeqs (g : HashGraph) (hs : List Handle) : List (List Char) :=
  hs.map fun h => ((alLookup g.graph h.id).map HGNode.sequence).getD []

/-- The graph with the single node 1 = "ACGT", built by `create_handle`. -/
def divideStartG : HashGraph :=
  ((createHandle ['A', 'C', 'G', 'T'] 1 hashGraphNew).map Prod.fst).getD hashGraphNew

/-- Claim C1: `divide_handle` is claimed to preserve the node's forward
sequence across the returned handle list; on node "ACGT" with the valid
offset list [1] the code instead produces segments "A" and "CG", because
the computed segment *length* is used as the slice *end index*
(`sequence[*o..len]` in `divide_handle`). The concatenation "ACG" differs
from the original "ACGT". -/
theorem divide_handle_drops_sequence :
    (divideHandle divideStartG ⟨1, false⟩ [1]).map (fun p => handleSeqs p.1 p.2) =
      some [['A'], ['C', 'G']] ∧
    (['A'] ++ ['C', 'G'] : List Char) ≠ ['A', 'C', 'G', 'T'] := by
  constructor
  · decide
  · decide

/-- Two nodes 1 = "A", 2 = "C", no edges. -/
def dupEdgeG0 : HashGraph :=
  ((do
      let g1 ← createHandle ['A'] 1 hashGraphNew
      let g2 ← createHandle ['C'] 2 g1.1
      pure g2.1) : Option HashGraph).getD hashGraphNew

/-- Claim C8: a repeated `create_edge(a, b)` is claimed to be a silent
no-op for both orientations of `a`. With `a` reversed the duplicate check
inspects `right_edges` while the insert goes to `left_edges`, so the second
call pushes the edge again: the state changes and node 1's left list holds
the target twice. -/
theorem create_edge_duplicate_not_noop :
    ((createEdge ⟨1, true⟩ ⟨2, false⟩ dupEdgeG0).bind
        (createEdge ⟨1, true⟩ ⟨2, false⟩)) ≠
      createEdge ⟨1, true⟩ ⟨2, false⟩ dupEdgeG0 ∧
    ((createEdge ⟨1, true⟩ ⟨2, false⟩ dupEdgeG0).bind
        (createEdge ⟨1, true⟩ ⟨2, false⟩)).map
        (fun g => (alLookup g.graph 1).map HGNode.left_edges) =
      some (some [⟨2, false⟩, ⟨2, false⟩]) := by
  constructor
  · decide
  · decide

/-- One node "A" (id 1), one path (id 0) that visits node 1 twice, built
via `create_path_handle` and two `append_step` calls. -/
def occTwiceG : Option HashGraph := do
  let g1 ← createHandle ['A'] 1 hashGraphNew
  let pg := createPathHandle ['p'] false g1.1
  let g3 ← appendStep pg.1 ⟨1, false⟩ pg.2
  appendStep pg.1 ⟨1, false⟩ g3

/-- Counterexample to claim C2: after a path appends the same node at step
indices 0 and 1, the node's occurrence map (a `HashMap<PathId, usize>`)
holds only the entry for index 1; the entry `(p, 0)` required by the claim
for step 0 is gone. -/
theorem occurrence_overwritten_cex :
    occTwiceG.map (fun g =>
        ((alLookup g.paths 0).map fun P => P.nodes[0]?,
         (alLookup g.graph 1).map fun nd => alLookup nd.occurrences 0)) =
      some (some (some ⟨1, false⟩), some (some 1)) ∧
    (some 1 : Option Nat) ≠ some 0 := by
  constructor
  · decide
  · decide

/-- Nodes 1 and 2 with the edge (1+, 2+); node 1 is then re-created by
`create_handle`, which silently replaces it and wipes its edge lists while
node 2 still holds the back-reference. -/
def overwriteG : Option HashGraph := do
  let g1 ← createHandle ['A'] 1 hashGraphNew
  let g2 ← createHandle ['C'] 2 g1.1
  let g3 ← createEdge ⟨1, false⟩ ⟨2, false⟩ g2.1
  let g4 ← createHandle ['T'] 1 g3
  pure g4.1

/-- Counterexample to claim C3: after `create_handle` re-creates node 1,
`has_edge(2-, 1-)` still holds via node 2's stale back-reference while
`has_edge(flip(1-), flip(2-)) = has_edge(1+, 2+)` is false, both nodes
being live. -/
theorem edge_symmetry_cex :
    overwriteG.map (fun g =>
        (hasEdge g ⟨2, true⟩ ⟨1, true⟩,
         hasEdge g (Handle.flip ⟨1, true⟩) (Handle.flip ⟨2, true⟩))) =
      some (some true, some false) := by
  decide

/-- Claim C10: in the reference representation, `previous_step` on the
first real step `Step(p, 0)` of a path with at least one step returns the
`End(p)` sentinel (not `Front(p)`). -/
theorem previous_step_first_is_end (g : HashGraph) (pid : Int) (P : HGPath)
    (hp : alLookup g.paths pid = some P) (hne : P.nodes ≠ []) :
    previousStep g (.step pid 0) = some (.endSentinel pid) := by
  simp [previousStep]

/-- One node "A" (id 1), one path (id 0) with the single step 1+. -/
def oneStepG : HashGraph :=
  ((do
      let g1 ← createHandle ['A'] 1 hashGraphNew
      let pg := createPathHandle ['p'] false g1.1
      appendStep pg.1 ⟨1, false⟩ pg.2) : Option HashGraph).getD hashGraphNew

theorem previous_step_first_is_end_witness :
    previousStep oneStepG (.step 0 0) = some (.endSentinel 0) :=
  previous_step_first_is_end oneStepG 0
    ⟨0, ['p'], false, [⟨1, false⟩]⟩ (by decide) (by decide)

/-!
Part 2 embeds the packed representation components. The packed vectors
(`src/packed/*`, not included in src/) expose `len`/`get`/`set`/`append` of
unsigned integers and are embedded as `List Nat` with `getD 0`, `List.set`
and append. One-based indices (`src/packedgraph/index.rs`, not included in
src/) are embedded as `Nat` with 0 as null, following their uses:
`from_zero_based ix = ix + 1`, `to_record_ix(w, o) = (ix - 1) * w + o`.
-/

/-- `OneBasedIndex::to_record_ix`: `none` on the null index. -/
def obToRecordIx (ix w off : Nat) : Option Nat :=
  if ix = 0 then none else some ((ix - 1) * w + off)

/-- `OneBasedIndex::to_zero_based`: `none` on the null index. -/
def obToZeroBased (ix : Nat) : Option Nat :=
  if ix = 0 then none else some (ix - 1)

/-- `packedpath.rs` `PackedPath`: `steps[i]` is the handle at step `i + 1`,
`links` stores `(prev, next)` flattened two entries per step record. -/
structure PackedPath where
  steps : List Nat
  links : List Nat
  deriving DecidableEq, Repr

/-- `PackedPath::append_handle`: push the handle and a zeroed link record,
returning the one-based index of the new step. -/
def PackedPath.appendStepRecord (p : PackedPath) (handle : Nat) : PackedPath × Nat :=
  (⟨p.steps ++ [handle], p.links ++ [0, 0]⟩, p.steps.length + 1)

/-- `PackedPath::prev_step`: the first link field of the record. -/
def PackedPath.prevStep (p : PackedPath) (ix : Nat) : Option Nat :=
  (obToRecordIx ix 2 0).map (fun i => p.links.getD i 0)

/-- `PackedPath::next_step`: the second link field of the record. -/
def PackedPath.nextStep (p : PackedPath) (ix : Nat) : Option Nat :=
  (obToRecordIx ix 2 1).map (fun i => p.links.getD i 0)

/-- The state carried by `PackedPathRefMut`: the path plus the pending
`PathUpdate` head/tail fields. -/
structure PackedPathMut where
  path : PackedPath
  head : Nat
  tail : Nat
  deriving DecidableEq, Repr

/-- `PackedPathRefMut::append_handle`: link the new step after the old
tail, set the head as well if the path was empty. -/
def appendHandleMut (s : PackedPathMut) (handle : Nat) : PackedPathMut × Nat :=
  let tail := s.tail
  let pr := s.path.appendStepRecord handle
  let step := pr.2
  let p2 := { pr.1 with links := pr.1.links.set ((step - 1) * 2 + 0) tail }
  let head' := if s.head = 0 then step else s.head
  let p3 :=
    match obToRecordIx tail 2 1 with
    | none => p2
    | some i => { p2 with links := p2.links.set i step }
  ({ path := p3, head := head', tail := step }, step)

/-- `PackedPathRefMut::prepend_handle`: link the new step before the old
head; the write guarded by `head.to_record_ix(2, 01)` goes to the old
head's record at offset 1, i.e. its *next* field. -/
def prependHandleMut (s : PackedPathMut) (handle : Nat) : PackedPathMut × Nat :=
  let head := s.head
  let pr := s.path.appendStepRecord handle
  let step := pr.2
  let p2 := { pr.1 with links := pr.1.links.set ((step - 1) * 2 + 1) head }
  let tail' := if s.tail = 0 then step else s.tail
  let p3 :=
    match obToRecordIx head 2 1 with
    | none => p2
    | some i => { p2 with links := p2.links.set i step }
  ({ path := p3, head := step, tail := tail' }, step)

/-- Claim C5: after `prepend_handle` on a non-empty path the old head's
prev link is claimed to point at the new step. On the one-step path [2]
prepending 4 yields links `[0, 2, 0, 1]`: the old head's prev is still 0
and its *next* field was overwritten with the new step instead
(`head.to_record_ix(2, 01)` selects offset 1, the next slot). -/
theorem prepend_handle_sets_wrong_link :
    (prependHandleMut (appendHandleMut ⟨⟨[], []⟩, 0, 0⟩ 2).1 4).1 =
      ⟨⟨[2, 4], [0, 2, 0, 1]⟩, 2, 1⟩ ∧
    PackedPath.prevStep ⟨[2, 4], [0, 2, 0, 1]⟩ 1 = some 0 ∧
    PackedPath.nextStep ⟨[2, 4], [0, 2, 0, 1]⟩ 1 = some 2 ∧
    (some 0 : Option Nat) ≠ some 2 := by
  refine ⟨by decide, by decide, by decide, by decide⟩

/-- `occurrences.rs` `NodeOccurrences`: three parallel vectors plus the
free list. -/
structure NodeOccurrences where
  path_ids : List Nat
  node_occur_offsets : List Nat
  node_occur_next : List Nat
  removed_records : List Nat
  deriving DecidableEq, Repr

/-- `NodeOccurrences::append_record`: push a zeroed record, returning its
one-based index. -/
def NodeOccurrences.appendRecord (o : NodeOccurrences) : NodeOccurrences × Nat :=
  (⟨o.path_ids ++ [0], o.node_occur_offsets ++ [0], o.node_occur_next ++ [0],
    o.removed_records⟩, o.path_ids.length + 1)

/-- `NodeOccurrences::set_record`. -/
def NodeOccurrences.setRecord (o : NodeOccurrences) (ix path_id offset next : Nat) :
    Bool × NodeOccurrences :=
  match obToZeroBased ix with
  | none => (false, o)
  | some ix0 =>
      if o.path_ids.length ≤ ix0 then (false, o)
      else (true, { o with
                      path_ids := o.path_ids.set ix0 path_id
                      node_occur_offsets := o.node_occur_offsets.set ix0 offset
                      node_occur_next := o.node_occur_next.set ix0 next })

/-- `NodeOccurrences::prepend_occurrence`: appends a record, reads the
*next* pointer of the record at `ix`, and writes the new record's fields;
nothing is ever pointed at the new record and the head at `ix` is left
unchanged. The `unwrap` on a null `ix` is embedded as `none`. -/
def NodeOccurrences.prependOccurrence (o : NodeOccurrences) (ix path_id offset : Nat) :
    Option NodeOccurrences := do
  let ix0 ← obToZeroBased ix
  let or := o.appendRecord
  let o1 := or.1
  let next := o1.node_occur_next.getD ix0 0
  let rec0 := or.2 - 1
  some { o1 with
           path_ids := o1.path_ids.set rec0 path_id
           node_occur_offsets := o1.node_occur_offsets.set rec0 offset
           node_occur_next := o1.node_occur_next.set rec0 next }

/-- `PackedList::get_record` for `NodeOccurrences`: `none` for the null
index or past the end. -/
def NodeOccurrences.getRecord (o : NodeOccurrences) (ix : Nat) :
    Option (Nat × Nat × Nat) :=
  match obToZeroBased ix with
  | none => none
  | some ix0 =>
      if o.path_ids.length ≤ ix0 then none
      else some (o.path_ids.getD ix0 0, o.node_occur_offsets.getD ix0 0,
                 o.node_occur_next.getD ix0 0)

/-- The `(path_id, step_index)` entries reachable from a head by following
`next` pointers, with explicit fuel (`list::Iter` over the occurrence
list). -/
def occEntries (o : NodeOccurrences) : Nat → Nat → List (Nat × Nat)
  | _, 0 => []
  | ptr, fuel + 1 =>
      match o.getRecord ptr with
      | none => []
      | some r => (r.1, r.2.1) :: occEntries o r.2.2 fuel

/-- An occurrence collection whose head record 1 is `(7, 3, next = 0)`. -/
def occStart : NodeOccurrences :=
  ((⟨[], [], [], []⟩ : NodeOccurrences).appendRecord.1.setRecord 1 7 3 0).2

/-- Claim C6: `prepend_occurrence(1, 2, 5)` is claimed to install a new
record holding `(2, 5)` as the list head, pointing at the old head. The
code instead leaves the head record and its list unchanged and writes the
new record with the old head's *next* pointer; the entry `(2, 5)` is not
reachable from the head. -/
theorem prepend_occurrence_unreachable :
    occStart.prependOccurrence 1 2 5 = some ⟨[7, 2], [3, 5], [0, 0], []⟩ ∧
    occEntries ⟨[7, 2], [3, 5], [0, 0], []⟩ 1 5 = [(7, 3)] ∧
    ¬ ((2, 5) ∈ occEntries ⟨[7, 2], [3, 5], [0, 0], []⟩ 1 5) := by
  refine ⟨by decide, by decide, by decide⟩

/-- `nodes.rs` `NodeIdIndexMap`: a deque of one-based record ids indexed by
`id - min_id`, 0 meaning absent. -/
structure NodeIdIndexMap where
  deque : List Nat
  min_id : Nat
  max_id : Nat
  deriving DecidableEq, Repr

/-- `NodeIdIndexMap::get_index`. -/
def NodeIdIndexMap.getIndex (m : NodeIdIndexMap) (id : Nat) : Option Nat :=
  if id < m.min_id ∨ m.max_id < id then none
  else
    let rec_id := m.deque.getD (id - m.min_id) 0
    if rec_id = 0 then none else some rec_id

/-- `NodeIdIndexMap::clear_node_id`. -/
def NodeIdIndexMap.clearNodeId (m : NodeIdIndexMap) (id : Nat) : NodeIdIndexMap :=
  { m with deque := m.deque.set (id - m.min_id) 0 }

/-- Modelled from the spec: `Sequences` (`src/packedgraph/sequence.rs` is
not included under src/). Per-record length and offset vectors;
`clear_record` "sets length to 0 without freeing the byte range". -/
structure Sequences where
  lengths : List Nat
  offsets : List Nat
  deriving DecidableEq, Repr

/-- Modelled from the spec: `Sequences::clear_record`. -/
def Sequences.clearRecord (s : Sequences) (ix : Nat) : Sequences :=
  { s with lengths := s.lengths.set ix 0 }

/-- `nodes.rs` `NodeRecords` (the fields reached by `clear_node_record`):
`records_vec` holds the two edge-list heads per node record, flattened. -/
structure NodeRecords where
  records_vec : List Nat
  id_index_map : NodeIdIndexMap
  sequences : Sequences
  removed_nodes : List Nat
  node_occurrence_map : List Nat
  deriving DecidableEq, Repr

/-- `NodeRecords::clear_node_record`, statement for statement: the graph
record is written by `set(rec_ix, 0)` followed by `set(rec_ix, 1)` — the
same slot twice, the second write storing the value 1 — and the slot
`rec_ix + 1` (the right-edge head) is never touched. -/
def NodeRecords.clearNodeRecord (nr : NodeRecords) (n_id : Nat) : Option NodeRecords := do
  let rec_id ← nr.id_index_map.getIndex n_id
  let occ_map_ix ← obToRecordIx rec_id 1 0
  let rec_ix ← obToRecordIx rec_id 2 0
  let seq_ix ← obToRecordIx rec_id 1 0
  some { nr with
           node_occurrence_map := nr.node_occurrence_map.set occ_map_ix 0
           records_vec := (nr.records_vec.set rec_ix 0).set rec_ix 1
           sequences := nr.sequences.clearRecord seq_ix
           id_index_map := nr.id_index_map.clearNodeId n_id
           removed_nodes := nr.removed_nodes ++ [n_id] }

/-- A single live node: id 1 at record 1, edge-list heads (5, 7),
occurrence head 9, sequence length 4. -/
def nrStart : NodeRecords :=
  ⟨[5, 7], ⟨[1], 1, 1⟩, ⟨[4], [0]⟩, [], [9]⟩

/-- Claim C7: `clear_node_record(1)` is claimed to zero both edge-list head
fields of the node's graph record. The code writes the left-head slot twice
(`set(rec_ix, 0)` then `set(rec_ix, 1)`), leaving the record as `[1, 7]`:
the left head ends up 1 and the right head 7 is untouched. The occurrence
head, the sequence length and the removed list behave as claimed. -/
theorem clear_node_record_leaves_garbage :
    nrStart.clearNodeRecord 1 =
      some ⟨[1, 7], ⟨[0], 1, 1⟩, ⟨[0], [0]⟩, [1], [0]⟩ ∧
    (some ([1, 7] : List Nat) ≠ some [0, 0]) := by
  refine ⟨by decide, by decide⟩

/-- `paths.rs` `PackedPathNames`: concatenated name bytes, per-path length
and offset records, and the name → id map. -/
structure PackedPathNames where
  name_id_map : List (List Nat × Nat)
  names : List Nat
  lengths : List Nat
  offsets : List Nat
  deriving DecidableEq, Repr

/-- `PackedPathNames::add_name`: the fresh id is `lengths.len()`; the
stored offset is also `lengths.len()` (the number of paths so far, not the
length `names.len()` of the byte vector); then the length, offset and name
bytes are appended. -/
def PackedPathNames.addName (pn : PackedPathNames) (name : List Nat) :
    PackedPathNames × Nat :=
  let path_id := pn.lengths.length
  let name_len := name.length
  let name_offset := pn.lengths.length
  (⟨alInsert pn.name_id_map name path_id,
    pn.names ++ name,
    pn.lengths ++ [name_len],
    pn.offsets ++ [name_offset]⟩, path_id)

/-- `PackedPathNames::name_iter`: `none` past the end, otherwise the byte
slice at the stored offset and length. -/
def PackedPathNames.nameIter (pn : PackedPathNames) (id : Nat) : Option (List Nat) :=
  if pn.lengths.length ≤ id then none
  else
    let offset := pn.offsets.getD id 0
    let len := pn.lengths.getD id 0
    some ((pn.names.drop offset).take len)

/-- `PathNames::get_path_id` for `PackedPathNames`. -/
def PackedPathNames.getPathId (pn : PackedPathNames) (name : List Nat) : Option Nat :=
  alLookup pn.name_id_map name

/-- The names "ab" then "cd" added to an empty collection. -/
def pnTwoNames : PackedPathNames :=
  (((⟨[], [], [], []⟩ : PackedPathNames).addName [97, 98]).1.addName [99, 100]).1

/-- Claim C9: looking a path up by name and reading the name back is
claimed to return the original bytes. After adding "ab" (id 0) and "cd"
(id 1), id 1's stored offset is 1 — `add_name` stores `lengths.len()`
instead of the byte offset `names.len()` — so the name reads back as
byte slice [98, 99] ("bc"), not [99, 100] ("cd"). -/
theorem path_name_roundtrip_broken :
    pnTwoNames.getPathId [99, 100] = some 1 ∧
    pnTwoNames.nameIter 1 = some [98, 99] ∧
    ([98, 99] : List Nat) ≠ [99, 100] := by
  refine ⟨by decide, by decide, by decide⟩

theorem alLookup_mem {α β : Type} [DecidableEq α] {l : List (α × β)} {k : α} {v : β}
    (h : alLookup l k = some v) : (k, v) ∈ l := by
  induction l with
  | nil => simp [alLookup] at h
  | cons hd t ih =>
      by_cases hk : hd.1 = k
      · simp only [alLookup, if_pos hk] at h
        cases h
        subst hk
        exact List.mem_cons_self _ _
      · simp only [alLookup, if_neg hk] at h
        exact List.mem_cons_of_mem _ (ih h)

/-- A start state for the path operations: no paths yet and no occurrence
entries on any node. -/
def NoPathState (g : HashGraph) : Prop :=
  g.paths = [] ∧ ∀ e ∈ g.graph, e.2.occurrences = ([] : List (Int × Nat))

instance (g : HashGraph) : Decidable (NoPathState g) := by
  unfold NoPathState
  infer_instance

/-- Graph states reachable from a path-free start state by
`create_path_handle` and `append_step` calls. -/
inductive PathOpsReachable : HashGraph → Prop where
  | base (g : HashGraph) : NoPathState g → PathOpsReachable g
  | createPath (g : HashGraph) (name : List Char) (circ : Bool) :
      PathOpsReachable g → PathOpsReachable (createPathHandle name circ g).2
  | appendStepOp (g g' : HashGraph) (pid : Int) (h : Handle) :
      PathOpsReachable g → appendStep pid h g = some g' → PathOpsReachable g'

/-- The occurrence invariant: path ids are bounded by the number of paths,
and for every step that is the *last* visit of its node by its path, the
node's occurrence map sends the path id to that step index. -/
def OccInv (g : HashGraph) : Prop :=
  (∀ pid P, alLookup g.paths pid = some P → 0 ≤ pid ∧ pid < (g.paths.length : Int)) ∧
  (∀ pid P, alLookup g.paths pid = some P →
    ∀ i h, P.nodes[i]? = some h →
      (∀ j h', i < j → P.nodes[j]? = some h' → h'.id ≠ h.id) →
      ∃ nd, alLookup g.graph h.id = some nd ∧ alLookup nd.occurrences pid = some i)

theorem occInv_base (g : HashGraph) (h0 : NoPathState g) : OccInv g := by
  obtain ⟨hpaths, _⟩ := h0
  constructor
  · intro pid P hP
    rw [hpaths] at hP
    simp [alLookup] at hP
  · intro pid P hP
    rw [hpaths] at hP
    simp [alLookup] at hP

theorem occInv_createPath (g : HashGraph) (name : List Char) (circ : Bool)
    (ih : OccInv g) : OccInv (createPathHandle name circ g).2 := by
  obtain ⟨iha, ihb⟩ := ih
  have hfresh : alLookup g.paths ((g.paths.length : Int)) = none := by
    cases hcase : alLookup g.paths ((g.paths.length : Int)) with
    | none => rfl
    | some P => exact absurd (iha _ _ hcase).2 (lt_irrefl _)
  have hlen : ((createPathHandle name circ g).2).paths.length = g.paths.length + 1 := by
    simp only [createPathHandle]
    exact length_alInsert_of_lookup_none _ _ _ hfresh
  constructor
  · intro pid P hP
    by_cases heq : pid = ((g.paths.length : Int))
    · subst heq
      rw [hlen]
      constructor
      · positivity
      · push_cast
        omega
    · simp only [createPathHandle] at hP
      rw [alLookup_alInsert_ne _ _ _ _ heq] at hP
      obtain ⟨h1, h2⟩ := iha _ _ hP
      rw [hlen]
      push_cast
      omega
  · intro pid P hP i h hi hlast
    by_cases heq : pid = ((g.paths.length : Int))
    · subst heq
      simp only [createPathHandle] at hP
      rw [alLookup_alInsert_self] at hP
      cases hP
      simp at hi
    · simp only [createPathHandle] at hP
      rw [alLookup_alInsert_ne _ _ _ _ heq] at hP
      exact ihb _ _ hP i h hi hlast

theorem occInv_appendStep (g g' : HashGraph) (pid : Int) (h : Handle)
    (ih : OccInv g) (hstep : appendStep pid h g = some g') : OccInv g' := by
  obtain ⟨iha, ihb⟩ := ih
  cases hpath : alLookup g.paths pid with
  | none => simp [appendStep, hpath] at hstep
  | some path =>
  cases hnode : alLookup g.graph h.id with
  | none => simp [appendStep, hpath, hnode] at hstep
  | some node =>
  have hg' : g' = { g with
      paths := alInsert g.paths pid { path with nodes := path.nodes ++ [h] }
      graph := alInsert g.graph h.id
        { node with occurrences := alInsert node.occurrences pid path.nodes.length } } := by
    simp only [appendStep, hpath, Option.bind_eq_bind, Option.some_bind, hnode] at hstep
    exact Option.some.inj hstep.symm
  subst hg'
  have hlenp : (alInsert g.paths pid
      { path with nodes := path.nodes ++ [h] }).length = g.paths.length :=
    length_alInsert_of_lookup_some _ _ _ (by rw [hpath]; rfl)
  constructor
  · intro pid' P hP
    simp only at hP ⊢
    rw [hlenp]
    by_cases heq : pid' = pid
    · subst heq
      exact iha _ _ hpath
    · rw [alLookup_alInsert_ne _ _ _ _ heq] at hP
      exact iha _ _ hP
  · intro pid' P hP i h'' hi hlast
    simp only at hP hi hlast ⊢
    by_cases heq : pid' = pid
    · subst heq
      rw [alLookup_alInsert_self] at hP
      cases hP
      simp only at hi hlast
      by_cases hilt : i < path.nodes.length
      · have hi0 : path.nodes[i]? = some h'' := by
          rwa [List.getElem?_append, if_pos hilt] at hi
        have hne : h.id ≠ h''.id := by
          refine hlast path.nodes.length h hilt ?_
          rw [List.getElem?_append, if_neg (by omega)]
          simp
        have hlast0 : ∀ j h3, i < j → path.nodes[j]? = some h3 → h3.id ≠ h''.id := by
          intro j h3 hj hjv
          have hjlt : j < path.nodes.length := (List.getElem?_eq_some.mp hjv).1
          refine hlast j h3 hj ?_
          rwa [List.getElem?_append, if_pos hjlt]
        obtain ⟨nd, hnd, hocc⟩ := ihb _ _ hpath i h'' hi0 hlast0
        refine ⟨nd, ?_, hocc⟩
        have hneid : h''.id ≠ h.id := fun hc => hne (hc ▸ rfl)
        rw [alLookup_alInsert_ne _ _ _ _ hneid]
        exact hnd
      · have hlen2 : i < path.nodes.length + 1 := by
          have := (List.getElem?_eq_some.mp hi).1
          simpa using this
        have hieq : i = path.nodes.length := by omega
        subst hieq
        have hh : h'' = h := by
          rw [List.getElem?_append, if_neg (by omega)] at hi
          simpa using hi.symm
        subst hh
        exact ⟨_, alLookup_alInsert_self _ _ _, alLookup_alInsert_self _ _ _⟩
    · rw [alLookup_alInsert_ne _ _ _ _ heq] at hP
      obtain ⟨nd, hnd, hocc⟩ := ihb _ _ hP i h'' hi hlast
      by_cases hid : h''.id = h.id
      · have hndeq : nd = node := by
          rw [hid] at hnd
          rw [hnd] at hnode
          cases hnode
          rfl
        subst hndeq
        refine ⟨{ nd with occurrences := alInsert nd.occurrences pid path.nodes.length },
          ?_, ?_⟩
        · rw [hid]
          exact alLookup_alInsert_self _ _ _
        · rw [alLookup_alInsert_ne _ _ _ _ heq]
          exact hocc
      · refine ⟨nd, ?_, hocc⟩
        rw [alLookup_alInsert_ne _ _ _ _ hid]
        exact hnd

theorem pathOps_occInv (g : HashGraph) (hre : PathOpsReachable g) : OccInv g := by
  induction hre with
  | base g h0 => exact occInv_base g h0
  | createPath g name circ _ ih => exact occInv_createPath g name circ ih
  | appendStepOp g g' pid h _ hstep ih => exact occInv_appendStep g g' pid h ih hstep

/-- Claim C2 (amended): in every graph state reachable by
`create_path_handle` and `append_step` calls, for every path `p` and step
index `i` carrying handle `h` such that `i` is the *last* index at which
`p` visits `node(h)`, the occurrence map of `node(h)` sends `p` to `i`.
(The map is keyed by path id, so when one path visits the same node at two
different step indices only the entry for the larger index is present.) -/
theorem append_step_last_occurrence (g : HashGraph) (hre : PathOpsReachable g)
    (pid : Int) (P : HGPath) (hp : alLookup g.paths pid = some P)
    (i : Nat) (h : Handle) (hi : P.nodes[i]? = some h)
    (hlast : ∀ j h', i < j → P.nodes[j]? = some h' → h'.id ≠ h.id) :
    ∃ nd, alLookup g.graph h.id = some nd ∧ alLookup nd.occurrences pid = some i :=
  (pathOps_occInv g hre).2 pid P hp i h hi hlast

def c2g1 : HashGraph := ((createHandle ['A'] 1 hashGraphNew).map Prod.fst).getD hashGraphNew

def c2g2 : HashGraph := (createPathHandle ['p'] false c2g1).2

def c2g3 : HashGraph := (appendStep 0 ⟨1, false⟩ c2g2).getD hashGraphNew

def c2g4 : HashGraph := (appendStep 0 ⟨1, false⟩ c2g3).getD hashGraphNew

theorem append_step_last_occurrence_witness :
    ∃ nd, alLookup c2g4.graph 1 = some nd ∧ alLookup nd.occurrences 0 = some 1 := by
  have r1 : PathOpsReachable c2g1 := PathOpsReachable.base c2g1 (by decide)
  have r2 : PathOpsReachable c2g2 := PathOpsReachable.createPath c2g1 ['p'] false r1
  have r3 : PathOpsReachable c2g3 :=
    PathOpsReachable.appendStepOp c2g2 c2g3 0 ⟨1, false⟩ r2 (by decide)
  have r4 : PathOpsReachable c2g4 :=
    PathOpsReachable.appendStepOp c2g3 c2g4 0 ⟨1, false⟩ r3 (by decide)
  refine append_step_last_occurrence c2g4 r4 0
      ⟨0, ['p'], false, [⟨1, false⟩, ⟨1, false⟩]⟩ (by decide) 1 ⟨1, false⟩ (by decide) ?_
  intro j h' hj hjv
  have hlt : j < 2 := by
    have := (List.getElem?_eq_some.mp hjv).1
    simpa using this
  omega

theorem Handle.flip_eq_iff (a b : Handle) : a.flip = b ↔ a = b.flip := by
  constructor
  · intro h
    rw [← h, Handle.flip_flip]
  · intro h
    rw [h, Handle.flip_flip]

theorem mem_alInsert {α β : Type} [DecidableEq α] {l : List (α × β)} {k : α} {v : β}
    {e : α × β} (h : e ∈ alInsert l k v) : e = (k, v) ∨ e ∈ l := by
  induction l with
  | nil => simpa [alInsert] using h
  | cons hd t ih =>
      by_cases hk : hd.1 = k
      · simp only [alInsert, if_pos hk] at h
        rcases List.mem_cons.mp h with h1 | h1
        · exact Or.inl h1
        · exact Or.inr (List.mem_cons_of_mem _ h1)
      · simp only [alInsert, if_neg hk] at h
        rcases List.mem_cons.mp h with h1 | h1
        · exact Or.inr (h1 ▸ List.mem_cons_self _ _)
        · rcases ih h1 with h2 | h2
          · exact Or.inl h2
          · exact Or.inr (List.mem_cons_of_mem _ h2)

theorem alLookup_isSome_alInsert {α β : Type} [DecidableEq α]
    (l : List (α × β)) (k k' : α) (v : β) (h : (alLookup l k').isSome) :
    (alLookup (alInsert l k v) k').isSome := by
  by_cases heq : k' = k
  · subst heq
    rw [alLookup_alInsert_self]
    rfl
  · rwa [alLookup_alInsert_ne _ _ _ _ heq]

/-- `neighborsRight` after replacing the node stored under `id`. -/
theorem neighborsRight_insert (g : HashGraph) (id : Nat) (nd : HGNode) (x : Handle)
    (px pi : Nat) (mx : Nat) (pl : List (List Char × Int)) (ps : List (Int × HGPath)) :
    neighborsRight { max_id := mx, min_id := pi, graph := alInsert g.graph id nd,
                     path_id := pl, paths := ps } x =
      if x.id = id then (if x.is_rev then nd.left_edges else nd.right_edges)
      else neighborsRight g x := by
  by_cases hx : x.id = id
  · subst hx
    simp [neighborsRight, alLookup_alInsert_self]
  · simp [neighborsRight, alLookup_alInsert_ne _ _ _ _ hx, hx]

theorem neighborsRight_eq_of_lookup (g : HashGraph) (x : Handle) (nd : HGNode)
    (h : alLookup g.graph x.id = some nd) :
    neighborsRight g x = if x.is_rev then nd.left_edges else nd.right_edges := by
  unfold neighborsRight
  rw [h]

theorem neighborsRight_eq_of_graph_lookup_eq (g g' : HashGraph) (x : Handle)
    (h : alLookup g'.graph x.id = alLookup g.graph x.id) :
    neighborsRight g' x = neighborsRight g x := by
  unfold neighborsRight
  rw [h]

/-- Membership in the `Right` neighbor list after a successful
non-duplicate `create_edge(l, r)`: exactly the old memberships plus the
pair `(l, r)` and, unless `l == flip(r)`, the mirrored pair
`(flip r, flip l)`. -/
theorem mem_neighborsRight_createEdge (g g' : HashGraph) (l r : Handle) (ln : HGNode)
    (hln : alLookup g.graph l.id = some ln) (hdup : ¬ r ∈ ln.right_edges)
    (hstep : createEdge l r g = some g') (x y : Handle) :
    (y ∈ neighborsRight g' x ↔
      (y ∈ neighborsRight g x ∨ (x = l ∧ y = r) ∨ (¬ l = r.flip ∧ x = r.flip ∧ y = l.flip))) := by
  simp only [createEdge, hln, Option.bind_eq_bind, Option.some_bind] at hstep
  rw [if_pos hdup] at hstep
  by_cases hsl : l = r.flip
  · rw [if_pos hsl] at hstep
    replace hstep := (Option.some.inj hstep)
    subst hstep
    by_cases hxi : x.id = l.id
    · have hlook : alLookup (alInsert g.graph l.id
          (if l.is_rev then { ln with left_edges := ln.left_edges ++ [r] }
           else { ln with right_edges := ln.right_edges ++ [r] })) x.id =
          some (if l.is_rev then { ln with left_edges := ln.left_edges ++ [r] }
                else { ln with right_edges := ln.right_edges ++ [r] }) := by
        rw [hxi]
        exact alLookup_alInsert_self _ _ _
      rw [neighborsRight_eq_of_lookup _ x _ hlook,
          neighborsRight_eq_of_lookup g x ln (hxi ▸ hln)]
      by_cases hxr : x.is_rev = l.is_rev
      · have hxl : x = l := by
          cases x
          cases l
          simp_all
      
        subst hxl
        cases hrev : x.is_rev <;>
          simp [hrev, hsl, List.mem_append]
      · have hxl : ¬ x = l := by
          intro hc
          exact hxr (hc ▸ rfl)
        cases hrev : x.is_rev <;> cases hlrev : l.is_rev <;>
          simp_all [hsl]
    · have hlook : alLookup (alInsert g.graph l.id
          (if l.is_rev then { ln with left_edges := ln.left_edges ++ [r] }
           else { ln with right_edges := ln.right_edges ++ [r] })) x.id =
          alLookup g.graph x.id := alLookup_alInsert_ne _ _ _ _ hxi
      rw [neighborsRight_eq_of_graph_lookup_eq g _ x hlook]
      have hxl : ¬ x = l := by
        intro hc
        exact hxi (hc ▸ rfl)
      have hxrf : ¬ x = r.flip := by
        intro hc
        exact hxl (hc.trans hsl.symm)
      simp [hxl, hxrf]
  · rw [if_neg hsl] at hstep
    cases hrn : alLookup (alInsert g.graph l.id
        (if l.is_rev then { ln with left_edges := ln.left_edges ++ [r] }
         else { ln with right_edges := ln.right_edges ++ [r] })) r.id with
    | none =>
        rw [hrn] at hstep
        simp at hstep
    | some rn =>
        rw [hrn] at hstep
        simp only [Option.some_bind] at hstep
        replace hstep := (Option.some.inj hstep)
        subst hstep
        by_cases hrl : r.id = l.id
        · have hlr : l = r := by
            obtain ⟨li, lrev⟩ := l
            obtain ⟨ri, rrev⟩ := r
            simp only [Handle.flip, Handle.mk.injEq] at hsl
            simp only at hrl
            subst hrl
            cases lrev <;> cases rrev <;> simp_all
          subst hlr
          rw [alLookup_alInsert_self] at hrn
          replace hrn := (Option.some.inj hrn)
          subst hrn
          have hnrflip : ¬ l = l.flip := by
            obtain ⟨li, lrev⟩ := l
            cases lrev <;> simp [Handle.flip]
          by_cases hxi : x.id = l.id
          · have hlook : alLookup (alInsert (alInsert g.graph l.id
                (if l.is_rev then { ln with left_edges := ln.left_edges ++ [l] }
                 else { ln with right_edges := ln.right_edges ++ [l] })) l.id
                (if l.is_rev
                 then { (if l.is_rev then { ln with left_edges := ln.left_edges ++ [l] }
                         else { ln with right_edges := ln.right_edges ++ [l] }) with
                          right_edges := (if l.is_rev
                            then { ln with left_edges := ln.left_edges ++ [l] }
                            else { ln with right_edges := ln.right_edges ++ [l] }).right_edges
                              ++ [l.flip] }
                 else { (if l.is_rev then { ln with left_edges := ln.left_edges ++ [l] }
                         else { ln with right_edges := ln.right_edges ++ [l] }) with
                          left_edges := (if l.is_rev
                            then { ln with left_edges := ln.left_edges ++ [l] }
                            else { ln with right_edges := ln.right_edges ++ [l] }).left_edges
                              ++ [l.flip] })) x.id = some
                (if l.is_rev
                 then { (if l.is_rev then { ln with left_edges := ln.left_edges ++ [l] }
                         else { ln with right_edges := ln.right_edges ++ [l] }) with
                          right_edges := (if l.is_rev
                            then { ln with left_edges := ln.left_edges ++ [l] }
                            else { ln with right_edges := ln.right_edges ++ [l] }).right_edges
                              ++ [l.flip] }
                 else { (if l.is_rev then { ln with left_edges := ln.left_edges ++ [l] }
                         else { ln with right_edges := ln.right_edges ++ [l] }) with
                          left_edges := (if l.is_rev
                            then { ln with left_edges := ln.left_edges ++ [l] }
                            else { ln with right_edges := ln.right_edges ++ [l] }).left_edges
                              ++ [l.flip] }) := by
              rw [hxi]
              exact alLookup_alInsert_self _ _ _
            rw [neighborsRight_eq_of_lookup _ x _ hlook,
                neighborsRight_eq_of_lookup g x ln (hxi ▸ hln)]
            by_cases hxrev : x.is_rev = l.is_rev
            · have hxl : x = l := by
                cases x
                cases l
                simp_all
              subst hxl
              cases hrev : x.is_rev <;>
                simp_all [List.mem_append]
            · have hxl : ¬ x = l := by
                intro hc
                exact hxrev (hc ▸ rfl)
              have hxlf : x = l.flip := by
                obtain ⟨xi, xrev⟩ := x
                obtain ⟨li, lrev⟩ := l
                simp only at hxi hxrev
                subst hxi
                cases xrev <;> cases lrev <;> simp_all [Handle.flip]
              cases hrev : x.is_rev <;> cases hlrev : l.is_rev <;>
                simp_all [List.mem_append, Handle.flip]
          · have hxl : ¬ x = l := by
              intro hc
              exact hxi (hc ▸ rfl)
            have hxlf : ¬ x = l.flip := by
              intro hc
              apply hxi
              rw [hc]
              rfl
            rw [neighborsRight_eq_of_graph_lookup_eq g _ x
                ((alLookup_alInsert_ne _ _ _ _ hxi).trans (alLookup_alInsert_ne _ _ _ _ hxi))]
            simp [hxl, hxlf]
        · have hrn0 : alLookup g.graph r.id = some rn := by
            rw [← hrn]
            exact (alLookup_alInsert_ne _ _ _ _ hrl).symm
          by_cases hxr : x.id = r.id
          · have hlook : alLookup (alInsert (alInsert g.graph l.id
                (if l.is_rev then { ln with left_edges := ln.left_edges ++ [r] }
                 else { ln with right_edges := ln.right_edges ++ [r] })) r.id
                (if r.is_rev then { rn with right_edges := rn.right_edges ++ [l.flip] }
                 else { rn with left_edges := rn.left_edges ++ [l.flip] })) x.id = some
                (if r.is_rev then { rn with right_edges := rn.right_edges ++ [l.flip] }
                 else { rn with left_edges := rn.left_edges ++ [l.flip] }) := by
              rw [hxr]
              exact alLookup_alInsert_self _ _ _
            rw [neighborsRight_eq_of_lookup _ x _ hlook,
                neighborsRight_eq_of_lookup g x rn (hxr ▸ hrn0)]
            have hxl : ¬ x = l := by
              intro hc
              exact hrl ((hc ▸ hxr).symm)
            by_cases hxrev : x.is_rev = r.is_rev
            · have hxreq : x = r := by
                cases x
                cases r
                simp_all
              subst hxreq
              have hxrf : ¬ x = x.flip := by
                obtain ⟨xi, xrev⟩ := x
                cases xrev <;> simp [Handle.flip]
              cases hrev : x.is_rev <;> simp_all [List.mem_append]
            · have hxrf : x = r.flip := by
                obtain ⟨xi, xrev⟩ := x
                obtain ⟨ri, rrev⟩ := r
                simp only at hxr hxrev
                subst hxr
                cases xrev <;> cases rrev <;> simp_all [Handle.flip]
              cases hrev : x.is_rev <;> cases hrrev : r.is_rev <;>
                simp_all [List.mem_append, Handle.flip]
          · by_cases hxi : x.id = l.id
            · have hlook : alLookup (alInsert (alInsert g.graph l.id
                  (if l.is_rev then { ln with left_edges := ln.left_edges ++ [r] }
                   else { ln with right_edges := ln.right_edges ++ [r] })) r.id
                  (if r.is_rev then { rn with right_edges := rn.right_edges ++ [l.flip] }
                   else { rn with left_edges := rn.left_edges ++ [l.flip] })) x.id = some
                  (if l.is_rev then { ln with left_edges := ln.left_edges ++ [r] }
                   else { ln with right_edges := ln.right_edges ++ [r] }) := by
                rw [alLookup_alInsert_ne _ _ _ _ hxr, hxi]
                exact alLookup_alInsert_self _ _ _
              rw [neighborsRight_eq_of_lookup _ x _ hlook,
                  neighborsRight_eq_of_lookup g x ln (hxi ▸ hln)]
              have hxrf : ¬ x = r.flip := by
                intro hc
                apply hxr
                rw [hc]
                rfl
              by_cases hxrev : x.is_rev = l.is_rev
              · have hxleq : x = l := by
                  cases x
                  cases l
                  simp_all
                subst hxleq
                cases hrev : x.is_rev <;> simp_all [List.mem_append]
              · have hxl : ¬ x = l := by
                  intro hc
                  exact hxrev (hc ▸ rfl)
                cases hrev : x.is_rev <;> cases hlrev : l.is_rev <;>
                  simp_all [List.mem_append]
            · have hxl : ¬ x = l := by
                intro hc
                exact hxi (hc ▸ rfl)
              have hxrf : ¬ x = r.flip := by
                intro hc
                apply hxr
                rw [hc]
                rfl
              rw [neighborsRight_eq_of_graph_lookup_eq g _ x
                  ((alLookup_alInsert_ne _ _ _ _ hxr).trans (alLookup_alInsert_ne _ _ _ _ hxi))]
              simp [hxl, hxrf]

theorem mem_neighborsRight_elim (g : HashGraph) (x y : Handle)
    (h : y ∈ neighborsRight g x) :
    ∃ nd, alLookup g.graph x.id = some nd ∧ (y ∈ nd.left_edges ∨ y ∈ nd.right_edges) := by
  cases hl : alLookup g.graph x.id with
  | none =>
      unfold neighborsRight at h
      rw [hl] at h
      simp at h
  | some nd =>
      rw [neighborsRight_eq_of_lookup g x nd hl] at h
      refine ⟨nd, rfl, ?_⟩
      by_cases hrev : x.is_rev
      · rw [if_pos hrev] at h
        exact Or.inl h
      · rw [if_neg hrev] at h
        exact Or.inr h

/-- Edge-membership symmetry: the two-sided form of claim C3. -/
def EdgeSym (g : HashGraph) : Prop :=
  ∀ a b : Handle, b ∈ neighborsRight g a ↔ a.flip ∈ neighborsRight g b.flip

/-- Every handle stored in an edge list refers to a live node. -/
def EdgeTargetsLive (g : HashGraph) : Prop :=
  ∀ id nd, alLookup g.graph id = some nd →
    ∀ h : Handle, (h ∈ nd.left_edges ∨ h ∈ nd.right_edges) →
      (alLookup g.graph h.id).isSome

theorem edgeSym_createEdge (g g' : HashGraph) (l r : Handle)
    (hsym : EdgeSym g) (hstep : createEdge l r g = some g') : EdgeSym g' := by
  cases hln : alLookup g.graph l.id with
  | none => simp [createEdge, hln] at hstep
  | some ln =>
  by_cases hdup : r ∈ ln.right_edges
  · have hgg : g' = g := by
      simp only [createEdge, hln, Option.bind_eq_bind, Option.some_bind] at hstep
      rw [if_neg (by simpa using hdup)] at hstep
      exact (Option.some.inj hstep).symm
    subst hgg
    exact hsym
  · intro a b
    rw [mem_neighborsRight_createEdge g g' l r ln hln hdup hstep a b,
        mem_neighborsRight_createEdge g g' l r ln hln hdup hstep b.flip a.flip,
        hsym a b]
    simp only [Handle.flip_eq_iff, Handle.flip_flip]
    by_cases hc : l = r.flip
    · subst hc
      simp [Handle.flip_flip]
      tauto
    · tauto

theorem targetsLive_createEdge (g g' : HashGraph) (l r : Handle)
    (hlive : EdgeTargetsLive g) (hstep : createEdge l r g = some g') :
    EdgeTargetsLive g' := by
  cases hln : alLookup g.graph l.id with
  | none => simp [createEdge, hln] at hstep
  | some ln =>
  by_cases hdup : r ∈ ln.right_edges
  · have hgg : g' = g := by
      simp only [createEdge, hln, Option.bind_eq_bind, Option.some_bind] at hstep
      rw [if_neg (by simpa using hdup)] at hstep
      exact (Option.some.inj hstep).symm
    subst hgg
    exact hlive
  · simp only [createEdge, hln, Option.bind_eq_bind, Option.some_bind] at hstep
    rw [if_pos hdup] at hstep
    by_cases hsl : l = r.flip
    · rw [if_pos hsl] at hstep
      replace hstep := (Option.some.inj hstep)
      subst hstep
      intro id nd hnd h hmem
      simp only at hnd ⊢
      by_cases hid : id = l.id
      · subst hid
        rw [alLookup_alInsert_self] at hnd
        replace hnd := (Option.some.inj hnd).symm
        subst hnd
        have hmem' : (h ∈ ln.left_edges ∨ h ∈ ln.right_edges) ∨ h = r := by
          cases hlrev : l.is_rev
          · simp only [hlrev, if_neg, Bool.false_eq_true, if_false, List.mem_append,
              List.mem_singleton] at hmem
            tauto
          · simp only [hlrev, if_true, List.mem_append, List.mem_singleton] at hmem
            tauto
        rcases hmem' with hold | hr
        · exact alLookup_isSome_alInsert _ _ _ _ (hlive _ _ hln h hold)
        · subst hr
          have hrid : h.id = l.id := by
            rw [hsl]
            rfl
          rw [hrid, alLookup_alInsert_self]
          rfl
      · rw [alLookup_alInsert_ne _ _ _ _ hid] at hnd
        exact alLookup_isSome_alInsert _ _ _ _ (hlive _ _ hnd h hmem)
    · rw [if_neg hsl] at hstep
      cases hrn : alLookup (alInsert g.graph l.id
          (if l.is_rev then { ln with left_edges := ln.left_edges ++ [r] }
           else { ln with right_edges := ln.right_edges ++ [r] })) r.id with
      | none =>
          rw [hrn] at hstep
          simp at hstep
      | some rn =>
      rw [hrn] at hstep
      simp only [Option.some_bind] at hstep
      replace hstep := (Option.some.inj hstep)
      subst hstep
      intro id nd hnd h hmem
      simp only at hnd ⊢
      have hpres : ∀ z : Handle, (alLookup g.graph z.id).isSome →
          (alLookup (alInsert (alInsert g.graph l.id
            (if l.is_rev then { ln with left_edges := ln.left_edges ++ [r] }
             else { ln with right_edges := ln.right_edges ++ [r] })) r.id
            (if r.is_rev then { rn with right_edges := rn.right_edges ++ [l.flip] }
             else { rn with left_edges := rn.left_edges ++ [l.flip] })) z.id).isSome :=
        fun z hz => alLookup_isSome_alInsert _ _ _ _ (alLookup_isSome_alInsert _ _ _ _ hz)
      have hlive_l : (alLookup (alInsert (alInsert g.graph l.id
            (if l.is_rev then { ln with left_edges := ln.left_edges ++ [r] }
             else { ln with right_edges := ln.right_edges ++ [r] })) r.id
            (if r.is_rev then { rn with right_edges := rn.right_edges ++ [l.flip] }
             else { rn with left_edges := rn.left_edges ++ [l.flip] })) l.id).isSome := by
        by_cases hlr : l.id = r.id
        · rw [hlr, alLookup_alInsert_self]
          rfl
        · rw [alLookup_alInsert_ne _ _ _ _ hlr, alLookup_alInsert_self]
          rfl
      have hlive_r : (alLookup (alInsert (alInsert g.graph l.id
            (if l.is_rev then { ln with left_edges := ln.left_edges ++ [r] }
             else { ln with right_edges := ln.right_edges ++ [r] })) r.id
            (if r.is_rev then { rn with right_edges := rn.right_edges ++ [l.flip] }
             else { rn with left_edges := rn.left_edges ++ [l.flip] })) r.id).isSome := by
        rw [alLookup_alInsert_self]
        rfl
      have hLNmem : ∀ h' : Handle,
          ((h' ∈ (if l.is_rev then { ln with left_edges := ln.left_edges ++ [r] }
                  else { ln with right_edges := ln.right_edges ++ [r] }).left_edges ∨
            h' ∈ (if l.is_rev then { ln with left_edges := ln.left_edges ++ [r] }
                  else { ln with right_edges := ln.right_edges ++ [r] }).right_edges)) →
          ((h' ∈ ln.left_edges ∨ h' ∈ ln.right_edges) ∨ h' = r) := by
        intro h' hm
        cases hlrev : l.is_rev
        · simp only [hlrev, Bool.false_eq_true, if_false, List.mem_append,
            List.mem_singleton] at hm
          tauto
        · simp only [hlrev, if_true, List.mem_append, List.mem_singleton] at hm
          tauto
      by_cases hidr : id = r.id
      · subst hidr
        rw [alLookup_alInsert_self] at hnd
        replace hnd := (Option.some.inj hnd).symm
        subst hnd
        have hmem' : (h ∈ rn.left_edges ∨ h ∈ rn.right_edges) ∨ h = l.flip := by
          cases hrrev : r.is_rev
          · simp only [hrrev, Bool.false_eq_true, if_false, List.mem_append,
              List.mem_singleton] at hmem
            tauto
          · simp only [hrrev, if_true, List.mem_append, List.mem_singleton] at hmem
            tauto
        rcases hmem' with hold | hlf
        · by_cases hlr : r.id = l.id
          · rw [hlr, alLookup_alInsert_self] at hrn
            replace hrn := (Option.some.inj hrn)
            rcases hLNmem h (by rw [hrn]; exact hold) with hold2 | hr2
            · exact hpres h (hlive _ _ hln h hold2)
            · subst hr2
              exact hlive_r
          · rw [alLookup_alInsert_ne _ _ _ _ hlr] at hrn
            exact hpres h (hlive _ _ hrn h hold)
        · subst hlf
          exact hlive_l
      · rw [alLookup_alInsert_ne _ _ _ _ hidr] at hnd
        by_cases hidl : id = l.id
        · subst hidl
          rw [alLookup_alInsert_self] at hnd
          replace hnd := (Option.some.inj hnd).symm
          subst hnd
          rcases hLNmem h hmem with hold | hr2
          · exact hpres h (hlive _ _ hln h hold)
          · subst hr2
            exact hlive_r
        · rw [alLookup_alInsert_ne _ _ _ _ hidl] at hnd
          exact hpres h (hlive _ _ hnd h hmem)

theorem edgeInv_createHandle (g g' : HashGraph) (seq : List Char) (id : Nat) (hh : Handle)
    (hsym : EdgeSym g) (hlive : EdgeTargetsLive g)
    (hfresh : alLookup g.graph id = none)
    (hstep : createHandle seq id g = some (g', hh)) :
    EdgeSym g' ∧ EdgeTargetsLive g' := by
  simp only [createHandle] at hstep
  by_cases hseq : seq = []
  · rw [if_pos hseq] at hstep
    simp at hstep
  · rw [if_neg hseq] at hstep
    replace hstep := (Option.some.inj hstep)
    rw [Prod.mk.injEq] at hstep
    obtain ⟨hg, -⟩ := hstep
    subst hg
    have hnew : ∀ x : Handle, x.id = id →
        neighborsRight { g with
          graph := alInsert g.graph id (HGNode.new seq)
          max_id := max g.max_id id
          min_id := min g.min_id id } x = [] := by
      intro x hx
      rw [neighborsRight_eq_of_lookup _ x (HGNode.new seq)
        (by simp only; rw [hx]; exact alLookup_alInsert_self _ _ _)]
      cases x.is_rev <;> simp [HGNode.new]
    have hold : ∀ x : Handle, ¬ x.id = id →
        neighborsRight { g with
          graph := alInsert g.graph id (HGNode.new seq)
          max_id := max g.max_id id
          min_id := min g.min_id id } x = neighborsRight g x := by
      intro x hx
      exact neighborsRight_eq_of_graph_lookup_eq g _ x (alLookup_alInsert_ne _ _ _ _ hx)
    have hdead : ∀ x y : Handle, x.id = id → ¬ y ∈ neighborsRight g x → True := fun _ _ _ _ => trivial
    constructor
    · intro a b
      by_cases hai : a.id = id
      · rw [hnew a hai]
        constructor
        · intro hcontra
          exact absurd hcontra (List.not_mem_nil _)
        · intro hcontra
          by_cases hbi : b.id = id
          · rw [hnew b.flip hbi] at hcontra
            exact absurd hcontra (List.not_mem_nil _)
          · rw [hold b.flip hbi] at hcontra
            obtain ⟨nb, hnb, hmem⟩ := mem_neighborsRight_elim g b.flip a.flip hcontra
            have hs := hlive _ _ hnb a.flip hmem
            have hs2 : (alLookup g.graph id).isSome := by
              rw [← hai]
              exact hs
            rw [hfresh] at hs2
            exact absurd hs2 (by simp)
      · by_cases hbi : b.id = id
        · rw [hold a hai, hnew b.flip hbi]
          constructor
          · intro hcontra
            obtain ⟨na, hna, hmem⟩ := mem_neighborsRight_elim g a b hcontra
            have hs := hlive _ _ hna b hmem
            have hs2 : (alLookup g.graph id).isSome := by
              rw [← hbi]
              exact hs
            rw [hfresh] at hs2
            exact absurd hs2 (by simp)
          · intro hcontra
            exact absurd hcontra (List.not_mem_nil _)
        · rw [hold a hai, hold b.flip hbi]
          exact hsym a b
    · intro id0 nd hnd h hmem
      simp only at hnd ⊢
      by_cases hid0 : id0 = id
      · subst hid0
        rw [alLookup_alInsert_self] at hnd
        replace hnd := (Option.some.inj hnd).symm
        subst hnd
        simp [HGNode.new] at hmem
      · rw [alLookup_alInsert_ne _ _ _ _ hid0] at hnd
        exact alLookup_isSome_alInsert _ _ _ _ (hlive _ _ hnd h hmem)

/-- Graph states reachable from the empty graph by `create_handle` calls
with *fresh* node ids (the amendment forced by the counterexample: the
source `create_handle` silently replaces an existing node) and by
`create_edge` calls. -/
inductive FreshReachable : HashGraph → Prop where
  | base : FreshReachable hashGraphNew
  | createH (g g' : HashGraph) (seq : List Char) (id : Nat) (h : Handle) :
      FreshReachable g → alLookup g.graph id = none →
      createHandle seq id g = some (g', h) → FreshReachable g'
  | createE (g g' : HashGraph) (l r : Handle) :
      FreshReachable g → createEdge l r g = some g' → FreshReachable g'

theorem freshReachable_inv (g : HashGraph) (h : FreshReachable g) :
    EdgeSym g ∧ EdgeTargetsLive g := by
  induction h with
  | base =>
      constructor
      · intro a b
        simp [neighborsRight, hashGraphNew, alLookup]
      · intro id nd hnd
        simp [hashGraphNew, alLookup] at hnd
  | createH g g' seq id hh _ hfresh hstep ih =>
      exact edgeInv_createHandle g g' seq id hh ih.1 ih.2 hfresh hstep
  | createE g g' l r _ hstep ih =>
      exact ⟨edgeSym_createEdge g g' l r ih.1 hstep,
             targetsLive_createEdge g g' l r ih.2 hstep⟩

theorem hasEdge_eq_true_iff (g : HashGraph) (a b : Handle) (nd : HGNode)
    (ha : alLookup g.graph a.id = some nd) :
    (hasEdge g a b = some true ↔ b ∈ neighborsRight g a) := by
  unfold hasEdge
  rw [ha, neighborsRight_eq_of_lookup g a nd ha]
  simp [List.elem_iff]

/-- Claim C3 (amended): after any sequence of `create_handle` operations
with fresh node ids and `create_edge` operations, for every pair of handles
on live nodes, `has_edge(a, b)` holds iff `has_edge(flip b, flip a)` holds.
(The freshness restriction is forced by the counterexample: the source
`create_handle` silently replaces an existing node, wiping its edge lists
while stale back-references survive on its neighbors.) -/
theorem create_edge_edge_symmetry (g : HashGraph) (hre : FreshReachable g)
    (a b : Handle) (na nb : HGNode)
    (ha : alLookup g.graph a.id = some na) (hb : alLookup g.graph b.id = some nb) :
    (hasEdge g a b = some true ↔ hasEdge g b.flip a.flip = some true) := by
  rw [hasEdge_eq_true_iff g a b na ha, hasEdge_eq_true_iff g b.flip a.flip nb hb]
  exact (freshReachable_inv g hre).1 a b

/-- Nodes 1 = "A" and 2 = "C" with the single edge (1+, 2+), built with
fresh ids from the empty graph. -/
def symG : HashGraph :=
  ((do
      let g1 ← createHandle ['A'] 1 hashGraphNew
      let g2 ← createHandle ['C'] 2 g1.1
      createEdge ⟨1, false⟩ ⟨2, false⟩ g2.1) : Option HashGraph).getD hashGraphNew

theorem create_edge_edge_symmetry_witness :
    hasEdge symG ⟨1, false⟩ ⟨2, false⟩ = some true ↔
      hasEdge symG (Handle.flip ⟨2, false⟩) (Handle.flip ⟨1, false⟩) = some true := by
  have h1 : FreshReachable (((createHandle ['A'] 1 hashGraphNew).map Prod.fst).getD hashGraphNew) :=
    FreshReachable.createH hashGraphNew _ ['A'] 1 ⟨1, false⟩ FreshReachable.base
      (by decide) (by decide)
  have h2 : FreshReachable ((((do
        let g1 ← createHandle ['A'] 1 hashGraphNew
        createHandle ['C'] 2 g1.1) : Option (HashGraph × Handle)).map Prod.fst).getD hashGraphNew) :=
    FreshReachable.createH _ _ ['C'] 2 ⟨2, false⟩ h1 (by decide) (by decide)
  have h3 : FreshReachable symG :=
    FreshReachable.createE _ symG ⟨1, false⟩ ⟨2, false⟩ h2 (by decide)
  exact create_edge_edge_symmetry symG h3 ⟨1, false⟩ ⟨2, false⟩
    ⟨['A'], [], [⟨2, false⟩], []⟩ ⟨['C'], [⟨1, true⟩], [], []⟩ (by decide) (by decide)

/-- `edges.rs` `EdgeLists`: the record vector (two elements per record —
packed target handle, then next pointer) and the free list of removed
records. -/
structure EdgeLists where
  record_vec : List Nat
  removed_records : List Nat
  deriving DecidableEq, Repr

/-- `PackedList::get_record` for `EdgeLists`: the `(handle, next)` pair of
a non-null one-based index (`get_handle` and `get_next`). -/
def EdgeLists.getRecord (el : EdgeLists) (ix : Nat) : Option (Nat × Nat) :=
  if ix = 0 then none
  else some (el.record_vec.getD ((ix - 1) * 2) 0, el.record_vec.getD ((ix - 1) * 2 + 1) 0)

/-- The target handles yielded by `iter(head)` (`list::Iter` following
`next` pointers until null), with explicit fuel. -/
def edgeTargets (el : EdgeLists) : Nat → Nat → List Nat
  | _, 0 => []
  | ptr, fuel + 1 =>
      match el.getRecord ptr with
      | none => []
      | some r => r.1 :: edgeTargets el r.2 fuel

/-- The total number of records, live and removed. -/
def edgeTotalRecords (el : EdgeLists) : Nat := el.record_vec.length / 2

/-- A one-based record index that is in range and not on the free list. -/
def edgeLive (el : EdgeLists) (p : Nat) : Bool :=
  decide (1 ≤ p) && decide (p ≤ edgeTotalRecords el) &&
    ! (el.removed_records.contains p)

/-- Modelled from the spec: `removed_id_map_as_u64`
(`src/packedgraph/index.rs` is not included under src/). Together with the
identity entries that `EdgeLists::defragment` inserts for the interval
below the first removed index, the id map sends every surviving one-based
index to itself minus the number of removed indices below it, and is
undefined on removed indices and out-of-range indices. The map does not
depend on the order of the free list, so the `sort` the source performs
first is immaterial here. -/
def defragIdMap (removed : List Nat) (total old : Nat) : Option Nat :=
  if old = 0 ∨ total < old ∨ old ∈ removed then none
  else some (old - (removed.filter (fun q => decide (q < old))).length)

/-- The per-record copy step of `EdgeLists::defragment`'s `filter_map`:
skip removed records (not in the id map), read the old record, remap a
non-null `next` pointer, and drop the record entirely when its `next` is
not in the map. -/
def defragCopy (el : EdgeLists) (m : Nat → Option Nat) (ix0 : Nat) : Option (Nat × Nat) :=
  match m (ix0 + 1) with
  | none => none
  | some _ =>
      let handle := el.record_vec.getD (ix0 * 2) 0
      let next := el.record_vec.getD (ix0 * 2 + 1) 0
      match (if next = 0 then some 0 else m next) with
      | none => none
      | some next' => some (handle, next')

/-- `EdgeLists::defragment`: `None` (and no change) when the free list is
empty; otherwise build the id map, copy the surviving records in old-index
order into a fresh vector remapping each non-null `next` pointer (a record
whose `next` is not in the map is dropped by the `filter_map`, exactly as
in the source), install the new vector, clear the free list, and return
the map. -/
def EdgeLists.defragment (el : EdgeLists) : Option ((Nat → Option Nat) × EdgeLists) :=
  if el.removed_records.isEmpty then none
  else
    let num_records := el.record_vec.length / 2 - el.removed_records.length
    let total := num_records + el.removed_records.length
    let m := defragIdMap el.removed_records total
    let newRecs : List (Nat × Nat) := (List.range total).filterMap (defragCopy el m)
    some (m, ⟨(newRecs.map fun p => [p.1, p.2]).flatten, []⟩)

/-- Well-formedness of an `EdgeLists` state, as maintained by the record
insertion and removal operations: an even vector length, a duplicate-free
free list of in-range indices whose records are zeroed, and live records
whose `next` pointers are null or live. -/
def edgeWF (el : EdgeLists) : Bool :=
  (el.record_vec.length % 2 == 0) &&
  decide el.removed_records.Nodup &&
  (el.removed_records.all fun q =>
    decide (1 ≤ q) && decide (q ≤ edgeTotalRecords el) &&
    (el.record_vec.getD ((q - 1) * 2) 0 == 0) &&
    (el.record_vec.getD ((q - 1) * 2 + 1) 0 == 0)) &&
  ((List.range (edgeTotalRecords el)).all fun ix0 =>
    ! edgeLive el (ix0 + 1) ||
      (let nxt := el.record_vec.getD (ix0 * 2 + 1) 0
       (nxt == 0) || edgeLive el nxt))

theorem length_filterMap_eq_countP {α β : Type} (f : α → Option β) (l : List α) :
    (l.filterMap f).length = l.countP (fun a => (f a).isSome) := by
  induction l with
  | nil => simp
  | cons hd t ih =>
      cases hf : f hd with
      | none => simp [List.filterMap_cons, hf, List.countP_cons, ih]
      | some b => simp [List.filterMap_cons, hf, List.countP_cons, ih]

theorem filterMap_range_getElem {β : Type} (f : Nat → Option β) (n i : Nat) (b : β)
    (hi : i < n) (hf : f i = some b) :
    ((List.range n).filterMap f)[((List.range i).filterMap f).length]? = some b := by
  obtain ⟨k, rfl⟩ : ∃ k, n = (i + 1) + k := ⟨n - (i + 1), by omega⟩
  rw [List.range_add, List.filterMap_append, List.range_succ, List.filterMap_append]
  rw [List.append_assoc]
  rw [List.getElem?_append, if_neg (by omega)]
  simp [hf]

theorem flatten_pairs_getD (l : List (Nat × Nat)) (k : Nat) (p : Nat × Nat)
    (h : l[k]? = some p) :
    (l.map fun q => [q.1, q.2]).flatten.getD (k * 2) 0 = p.1 ∧
    (l.map fun q => [q.1, q.2]).flatten.getD (k * 2 + 1) 0 = p.2 := by
  induction l generalizing k with
  | nil => simp at h
  | cons hd t ih =>
      cases k with
      | zero =>
          simp only [List.getElem?_cons_zero] at h
          cases h
          simp [List.getD]
      | succ k' =>
          simp only [List.getElem?_cons_succ] at h
          have := ih k' h
          have harith : (k' + 1) * 2 = k' * 2 + 2 := by ring
          simpa [harith, List.getD] using this

theorem nodup_bounded_length (l : List Nat) (n : Nat) (hnd : l.Nodup)
    (hb : ∀ q ∈ l, 1 ≤ q ∧ q ≤ n) : l.length ≤ n := by
  have hsub : l.toFinset ⊆ Finset.Icc 1 n := by
    intro q hq
    rw [List.mem_toFinset] at hq
    exact Finset.mem_Icc.mpr (hb q hq)
  have hcard := Finset.card_le_card hsub
  rw [List.toFinset_card_of_nodup hnd] at hcard
  simpa [Nat.card_Icc] using hcard

theorem length_filter_le_succ (l : List Nat) (n : Nat) :
    (l.filter fun q => decide (q ≤ n + 1)).length =
      (l.filter fun q => decide (q ≤ n)).length + l.count (n + 1) := by
  induction l with
  | nil => simp
  | cons hd t ih =>
      by_cases h1 : hd ≤ n
      · have h2 : hd ≤ n + 1 := by omega
        have h3 : ¬ hd = n + 1 := by omega
        simp [List.filter_cons, h1, h2, List.count_cons, h3, ih]
        omega
      · by_cases h2 : hd = n + 1
        · subst h2
          simp [List.filter_cons, h1, List.count_cons, ih]
          omega
        · have h3 : ¬ hd ≤ n + 1 := by omega
          simp [List.filter_cons, h1, h3, List.count_cons, h2, ih]

theorem countP_range_contains (l : List Nat) (hnd : l.Nodup)
    (hq1 : ∀ q ∈ l, 1 ≤ q) (n : Nat) :
    (List.range n).countP (fun j => l.contains (j + 1)) =
      (l.filter fun q => decide (q ≤ n)).length := by
  induction n with
  | zero =>
      simp only [List.range_zero, List.countP_nil]
      symm
      rw [List.length_eq_zero, List.filter_eq_nil_iff]
      intro q hq
      have := hq1 q hq
      simp only [decide_eq_true_eq]
      omega
  | succ n ih =>
      rw [List.range_succ, List.countP_append, ih, length_filter_le_succ]
      congr 1
      simp only [List.countP_cons, List.countP_nil, Nat.zero_add]
      by_cases hmem : (n + 1) ∈ l
      · rw [List.count_eq_one_of_mem hnd hmem]
        simp [List.elem_iff, hmem]
      · rw [List.count_eq_zero_of_not_mem hmem]
        simp [List.elem_iff, hmem]

theorem edgeLive_iff (el : EdgeLists) (p : Nat) :
    edgeLive el p = true ↔
      (1 ≤ p ∧ p ≤ edgeTotalRecords el ∧ ¬ p ∈ el.removed_records) := by
  simp [edgeLive, List.elem_iff, and_assoc]

theorem edgeWF_unfold (el : EdgeLists) (hwf : edgeWF el = true) :
    el.record_vec.length % 2 = 0 ∧
    el.removed_records.Nodup ∧
    (∀ q ∈ el.removed_records, 1 ≤ q ∧ q ≤ edgeTotalRecords el ∧
      el.record_vec.getD ((q - 1) * 2) 0 = 0 ∧
      el.record_vec.getD ((q - 1) * 2 + 1) 0 = 0) ∧
    (∀ p, edgeLive el p = true →
      el.record_vec.getD ((p - 1) * 2 + 1) 0 = 0 ∨
      edgeLive el (el.record_vec.getD ((p - 1) * 2 + 1) 0) = true) := by
  simp only [edgeWF, Bool.and_eq_true, beq_iff_eq, decide_eq_true_eq,
    List.all_eq_true, Bool.or_eq_true, Bool.not_eq_true'] at hwf
  obtain ⟨⟨⟨hmod, hnd⟩, hrem⟩, hnext⟩ := hwf
  refine ⟨hmod, hnd, ?_, ?_⟩
  · intro q hq
    have h := hrem q hq
    exact ⟨h.1.1.1, h.1.1.2, h.1.2, h.2⟩
  · intro p hlp
    have hp := (edgeLive_iff el p).mp hlp
    have hm := hnext (p - 1) (by rw [List.mem_range]; omega)
    rw [show p - 1 + 1 = p from by omega] at hm
    rcases hm with h | h
    · rw [h] at hlp
      simp at hlp
    · rcases h with h | h
      · left
        exact h
      · right
        exact h

/-- The number of removed records strictly below a live index is at most
`p - 1`, and the surviving index `p - cnt` is positive. -/
theorem defrag_cnt_le (el : EdgeLists) (hwf : edgeWF el = true) (p : Nat)
    (hp1 : 1 ≤ p) (hptot : p ≤ edgeTotalRecords el) :
    (el.removed_records.filter fun q => decide (q < p)).length ≤ p - 1 := by
  obtain ⟨-, hnd, hrem, -⟩ := edgeWF_unfold el hwf
  refine nodup_bounded_length _ _ (hnd.filter _) ?_
  intro q hq
  rw [List.mem_filter] at hq
  have h1 := (hrem q hq.1).1
  have h2 := hq.2
  simp only [decide_eq_true_eq] at h2
  omega

theorem defrag_total (el : EdgeLists) (hwf : edgeWF el = true) :
    el.record_vec.length / 2 - el.removed_records.length + el.removed_records.length =
      edgeTotalRecords el := by
  obtain ⟨-, hnd, hrem, -⟩ := edgeWF_unfold el hwf
  have hle : el.removed_records.length ≤ edgeTotalRecords el :=
    nodup_bounded_length _ _ hnd (fun q hq => ⟨(hrem q hq).1, (hrem q hq).2.1⟩)
  unfold edgeTotalRecords at hle ⊢
  omega

theorem defrag_copy_isSome (el : EdgeLists) (hwf : edgeWF el = true) (j : Nat)
    (hj : j < edgeTotalRecords el) :
    (defragCopy el (defragIdMap el.removed_records (edgeTotalRecords el)) j).isSome =
      ! (el.removed_records.contains (j + 1)) := by
  obtain ⟨-, -, -, hnext⟩ := edgeWF_unfold el hwf
  by_cases hmem : (j + 1) ∈ el.removed_records
  · have hm : defragIdMap el.removed_records (edgeTotalRecords el) (j + 1) = none := by
      unfold defragIdMap
      rw [if_pos (Or.inr (Or.inr hmem))]
    simp [defragCopy, hm, List.elem_iff, hmem]
  · have hlive : edgeLive el (j + 1) = true :=
      (edgeLive_iff el (j + 1)).mpr ⟨by omega, by omega, hmem⟩
    have hm : defragIdMap el.removed_records (edgeTotalRecords el) (j + 1) =
        some ((j + 1) -
          (el.removed_records.filter fun q => decide (q < j + 1)).length) := by
      unfold defragIdMap
      rw [if_neg (by push_neg; exact ⟨by omega, by omega, hmem⟩)]
    have hnxt := hnext (j + 1) hlive
    rw [show j + 1 - 1 = j from by omega] at hnxt
    rcases hnxt with h0 | hlv
    · rw [List.getD_eq_getElem?_getD] at h0
      simp [defragCopy, hm, h0, List.elem_iff, hmem]
    · have hne0 : ¬ el.record_vec.getD (j * 2 + 1) 0 = 0 := by
        intro hc
        rw [hc] at hlv
        simp [edgeLive] at hlv
      have hlv' := (edgeLive_iff el _).mp hlv
      have hm2 : defragIdMap el.removed_records (edgeTotalRecords el)
          (el.record_vec.getD (j * 2 + 1) 0) =
          some ((el.record_vec.getD (j * 2 + 1) 0) -
            (el.removed_records.filter fun q =>
              decide (q < el.record_vec.getD (j * 2 + 1) 0)).length) := by
        unfold defragIdMap
        rw [if_neg (by push_neg; exact ⟨by omega, by omega, hlv'.2.2⟩)]
      rw [List.getD_eq_getElem?_getD] at hne0 hm2
      simp [defragCopy, hm, hne0, hm2, List.elem_iff, hmem]

theorem defrag_copy_live (el : EdgeLists) (hwf : edgeWF el = true) (p : Nat)
    (hlp : edgeLive el p = true) :
    defragCopy el (defragIdMap el.removed_records (edgeTotalRecords el)) (p - 1) =
      some (el.record_vec.getD ((p - 1) * 2) 0,
        if el.record_vec.getD ((p - 1) * 2 + 1) 0 = 0 then 0
        else (defragIdMap el.removed_records (edgeTotalRecords el)
          (el.record_vec.getD ((p - 1) * 2 + 1) 0)).getD 0) := by
  obtain ⟨-, -, -, hnext⟩ := edgeWF_unfold el hwf
  have hp := (edgeLive_iff el p).mp hlp
  have hm : defragIdMap el.removed_records (edgeTotalRecords el) (p - 1 + 1) =
      some (p - (el.removed_records.filter fun q => decide (q < p)).length) := by
    rw [show p - 1 + 1 = p from by omega]
    unfold defragIdMap
    rw [if_neg (by push_neg; exact ⟨by omega, by omega, hp.2.2⟩)]
  rcases hnext p hlp with h0 | hlv
  · rw [List.getD_eq_getElem?_getD] at h0
    simp [defragCopy, hm, h0]
  · have hne0 : ¬ el.record_vec.getD ((p - 1) * 2 + 1) 0 = 0 := by
      intro hc
      rw [hc] at hlv
      simp [edgeLive] at hlv
    have hlv' := (edgeLive_iff el _).mp hlv
    have hm2 : defragIdMap el.removed_records (edgeTotalRecords el)
        (el.record_vec.getD ((p - 1) * 2 + 1) 0) =
        some ((el.record_vec.getD ((p - 1) * 2 + 1) 0) -
          (el.removed_records.filter fun q =>
            decide (q < el.record_vec.getD ((p - 1) * 2 + 1) 0)).length) := by
      unfold defragIdMap
      rw [if_neg (by push_neg; exact ⟨by omega, by omega, hlv'.2.2⟩)]
    rw [List.getD_eq_getElem?_getD] at hne0 hm2
    simp [defragCopy, hm, hne0, hm2]

theorem defragment_some (el : EdgeLists) (hwf : edgeWF el = true)
    (hne : el.removed_records ≠ []) :
    el.defragment = some (defragIdMap el.removed_records (edgeTotalRecords el),
      ⟨(((List.range (edgeTotalRecords el)).filterMap
          (defragCopy el (defragIdMap el.removed_records (edgeTotalRecords el)))).map
            fun p => [p.1, p.2]).flatten, []⟩) := by
  unfold EdgeLists.defragment
  rw [if_neg (by simpa [List.isEmpty_iff] using hne)]
  simp only []
  rw [defrag_total el hwf]

theorem defrag_newRecs_getElem (el : EdgeLists) (hwf : edgeWF el = true)
    (p : Nat) (hlp : edgeLive el p = true) :
    ((List.range (edgeTotalRecords el)).filterMap
        (defragCopy el (defragIdMap el.removed_records (edgeTotalRecords el))))[
      p - (el.removed_records.filter fun q => decide (q < p)).length - 1]? =
      some (el.record_vec.getD ((p - 1) * 2) 0,
        if el.record_vec.getD ((p - 1) * 2 + 1) 0 = 0 then 0
        else (defragIdMap el.removed_records (edgeTotalRecords el)
          (el.record_vec.getD ((p - 1) * 2 + 1) 0)).getD 0) := by
  obtain ⟨-, hnd, hrem, -⟩ := edgeWF_unfold el hwf
  have hp := (edgeLive_iff el p).mp hlp
  have hcnt := defrag_cnt_le el hwf p hp.1 hp.2.1
  have hlen : ((List.range (p - 1)).filterMap
      (defragCopy el (defragIdMap el.removed_records (edgeTotalRecords el)))).length =
      p - (el.removed_records.filter fun q => decide (q < p)).length - 1 := by
    rw [length_filterMap_eq_countP]
    have hc : (List.range (p - 1)).countP
        (fun j => (defragCopy el
          (defragIdMap el.removed_records (edgeTotalRecords el)) j).isSome) =
        (List.range (p - 1)).countP
          (fun j => ! el.removed_records.contains (j + 1)) := by
      refine List.countP_congr ?_
      intro j hj
      rw [List.mem_range] at hj
      have hjtot : j < edgeTotalRecords el := by omega
      rw [defrag_copy_isSome el hwf j hjtot]
    rw [hc]
    have hsplit := List.length_eq_countP_add_countP
      (fun j => el.removed_records.contains (j + 1)) (List.range (p - 1))
    rw [List.length_range] at hsplit
    have hcc : (List.range (p - 1)).countP
        (fun a => decide ¬((fun j => el.removed_records.contains (j + 1)) a = true)) =
        (List.range (p - 1)).countP
          (fun j => ! el.removed_records.contains (j + 1)) := by
      refine List.countP_congr ?_
      intro j _
      simp
    rw [hcc] at hsplit
    have hcount := countP_range_contains el.removed_records hnd
      (fun q hq => (hrem q hq).1) (p - 1)
    have hfilter : (el.removed_records.filter fun q => decide (q ≤ p - 1)) =
        (el.removed_records.filter fun q => decide (q < p)) := by
      refine List.filter_congr ?_
      intro q hq
      have h1 := (hrem q hq).1
      simp only [decide_eq_decide]
      omega
    rw [hfilter] at hcount
    omega
  rw [← hlen]
  exact filterMap_range_getElem _ (edgeTotalRecords el) (p - 1) _ (by omega)
    (defrag_copy_live el hwf p hlp)

theorem defrag_getRecord (el : EdgeLists) (hwf : edgeWF el = true)
    (m : Nat → Option Nat) (el' : EdgeLists) (hdef : el.defragment = some (m, el'))
    (p : Nat) (hlp : edgeLive el p = true) :
    el'.getRecord ((m p).getD 0) =
      some (el.record_vec.getD ((p - 1) * 2) 0,
        if el.record_vec.getD ((p - 1) * 2 + 1) 0 = 0 then 0
        else (m (el.record_vec.getD ((p - 1) * 2 + 1) 0)).getD 0) := by
  have hne : el.removed_records ≠ [] := by
    intro hc
    unfold EdgeLists.defragment at hdef
    rw [if_pos (by simp [hc])] at hdef
    cases hdef
  rw [defragment_some el hwf hne] at hdef
  replace hdef := Option.some.inj hdef
  rw [Prod.mk.injEq] at hdef
  obtain ⟨hm, hel'⟩ := hdef
  subst hm
  subst hel'
  have hp := (edgeLive_iff el p).mp hlp
  have hcnt := defrag_cnt_le el hwf p hp.1 hp.2.1
  have hmp : defragIdMap el.removed_records (edgeTotalRecords el) p =
      some (p - (el.removed_records.filter fun q => decide (q < p)).length) := by
    unfold defragIdMap
    rw [if_neg (by push_neg; exact ⟨by omega, by omega, hp.2.2⟩)]
  rw [hmp]
  have hget := defrag_newRecs_getElem el hwf p hlp
  have hpair := flatten_pairs_getD _
    (p - (el.removed_records.filter fun q => decide (q < p)).length - 1) _ hget
  unfold EdgeLists.getRecord
  rw [if_neg (by simp only [Option.getD_some]; omega)]
  simp only [Option.getD_some]
  rw [hpair.1, hpair.2]

theorem defrag_targets_eq (el : EdgeLists) (hwf : edgeWF el = true)
    (m : Nat → Option Nat) (el' : EdgeLists) (hdef : el.defragment = some (m, el')) :
    ∀ fuel ptr, (ptr = 0 ∨ edgeLive el ptr = true) →
      edgeTargets el' (if ptr = 0 then 0 else (m ptr).getD 0) fuel =
        edgeTargets el ptr fuel := by
  intro fuel
  induction fuel with
  | zero =>
      intro ptr _
      rfl
  | succ fuel ih =>
      intro ptr hptr
      rcases hptr with h0 | hl
      · subst h0
        rfl
      · have hp := (edgeLive_iff el ptr).mp hl
        rw [if_neg (by omega)]
        have hrec := defrag_getRecord el hwf m el' hdef ptr hl
        have hold : el.getRecord ptr =
            some (el.record_vec.getD ((ptr - 1) * 2) 0,
                  el.record_vec.getD ((ptr - 1) * 2 + 1) 0) := by
          unfold EdgeLists.getRecord
          rw [if_neg (by omega)]
        rw [edgeTargets, edgeTargets, hrec, hold]
        simp only
        congr 1
        obtain ⟨-, -, -, hnext⟩ := edgeWF_unfold el hwf
        have hnx := hnext ptr hl
        have := ih (el.record_vec.getD ((ptr - 1) * 2 + 1) 0)
          (by rcases hnx with h | h
              · exact Or.inl h
              · exact Or.inr h)
        rwa [show (if el.record_vec.getD ((ptr - 1) * 2 + 1) 0 = 0 then 0
              else (m (el.record_vec.getD ((ptr - 1) * 2 + 1) 0)).getD 0) =
            (if el.record_vec.getD ((ptr - 1) * 2 + 1) 0 = 0 then (0 : Nat)
              else (m (el.record_vec.getD ((ptr - 1) * 2 + 1) 0)).getD 0) from rfl] at this

/-- Claim C4: `EdgeLists::defragment` returns `None` (and the collection
is unchanged) when the free list of removed records is empty; otherwise it
returns an old-id-to-new-id map such that for every edge-list head that is
live (in range and not removed), iterating the list starting at the mapped
head after defragmentation yields the same sequence of target handles, in
the same order, as iterating from the old head before. (The helper
`removed_id_map_as_u64` lives in `src/packedgraph/index.rs`, which is not
included under src/, and is modelled from the spec.) -/
theorem edgeLists_defragment_spec (el : EdgeLists) (hwf : edgeWF el = true) :
    (el.removed_records = [] → el.defragment = none) ∧
    (el.removed_records ≠ [] → (el.defragment).isSome = true) ∧
    (∀ m el', el.defragment = some (m, el') →
      ∀ hd newHd, edgeLive el hd = true → m hd = some newHd →
        ∀ fuel, edgeTargets el' newHd fuel = edgeTargets el hd fuel) := by
  refine ⟨?_, ?_, ?_⟩
  · intro h
    unfold EdgeLists.defragment
    rw [if_pos (by simp [h])]
  · intro h
    rw [defragment_some el hwf h]
    rfl
  · intro m el' hdef hd newHd hlhd hm fuel
    have h := defrag_targets_eq el hwf m el' hdef fuel hd (Or.inr hlhd)
    have hne0 : ¬ hd = 0 := by
      have := (edgeLive_iff el hd).mp hlhd
      omega
    rw [if_neg hne0, hm] at h
    simpa using h

/-- Three records, 1 → 3 with targets 10 and 12, record 2 removed. -/
def elC : EdgeLists := ⟨[10, 3, 0, 0, 12, 0], [2]⟩

/-- The defragmented form of `elC`: records 1 → 2 with targets 10 and 12. -/
def elC' : EdgeLists := ⟨[10, 2, 12, 0], []⟩

theorem edgeLists_defragment_spec_witness :
    (elC.defragment).isSome = true ∧
    edgeTargets elC' 1 5 = edgeTargets elC 1 5 ∧
    edgeTargets elC 1 5 = [10, 12] := by
  have h := edgeLists_defragment_spec elC (by decide)
  refine ⟨h.2.1 (by decide), ?_, by decide⟩
  have hdef : elC.defragment = some (defragIdMap elC.removed_records 3, elC') := rfl
  exact h.2.2 _ elC' hdef 1 1 (by decide) (by decide) 5
